import Mathlib

/-!
Verification of the LSM storage-engine core (`src/lib.rs`,
`src/wal/record_entry.rs`) against its natural-language specification.

The embedding translates the code shallowly:
* machine integers (`u32` timestamps, `usize` sizes) become `Nat`;
* the sorted in-memory map of the `Mutable` table becomes the list of its
  entries (reads are modelled as minimum selection over the entries, which is
  order-independent, so the physical sort order of the list is immaterial);
* async functions become pure state-passing functions;
* the capacity-one `flume` channel becomes a pending-message count capped at 1;
* fallible code returns `Except` and panicking code returns `PResult`.

Components of the repository whose source is not present (`Mutable`,
`Immutable`, `Version`, `MergeStream`, the `serdes` codecs) are modelled from
the specification; each such definition carries a doc comment saying so.
-/

namespace Tonbo

/-- A stored entry of any source (Mutable, Immutable, SST row):
user key, timestamp, and optional record value (`none` is a tombstone).
Keys and values are modelled as `Nat`. -/
structure TEntry where
  key : Nat
  ts : Nat
  value : Option Nat
deriving DecidableEq, Repr

/-- A user record: the primary key and the rest of the payload, modelled as
`Nat`s (mirrors `R: Record` with `R::Key`). -/
structure Rec where
  key : Nat
  val : Nat
deriving DecidableEq, Repr

/-- `wal::log::LogType` of the source: framing tag of a WAL record. -/
inductive LogType
  | full
  | first
  | middle
  | last
deriving DecidableEq, Repr

/-- Modelled from the spec: the in-memory byte estimate of one entry
accumulated by `Mutable::insert` ("Return the accumulated in-memory byte
estimate"). The exact constants are immaterial to every claim below; only
the comparison of the returned estimate with `max_mem_table_size` matters. -/
def entrySize (e : TEntry) : Nat :=
  8 + 4 + (match e.value with
    | some _ => 8
    | none => 0)

/-- Accumulated byte estimate of a list of entries. -/
def sizeEst (entries : List TEntry) : Nat :=
  entries.foldl (fun acc e => acc + entrySize e) 0

/-- Modelled from the spec: the `Mutable` table (`inmem::mutable::Mutable`,
not under `src/`): the sorted map of live writes together with the WAL it
appends to. The map content is carried as the list of its entries. -/
structure Mutable where
  data : List TEntry
  wal : List (LogType × Rec × Nat)
deriving DecidableEq, Repr

/-- Modelled from the spec: `Mutable::insert(log_ty, record, ts) -> new_size`
"append to WAL with the given log-type tag, then insert
`(K(record), ts) → Some(record)` into the sorted map. Return the accumulated
in-memory byte estimate." -/
def Mutable.insert (m : Mutable) (logTy : LogType) (r : Rec) (ts : Nat) :
    Mutable × Nat :=
  let m' : Mutable :=
    { data := m.data ++ [⟨r.key, ts, some r.val⟩]
      wal := m.wal ++ [(logTy, r, ts)] }
  (m', sizeEst m'.data)

/-- Modelled from the spec: `Mutable::check_conflict(key, snapshot_ts)`:
"any entry with key == key and ts > snapshot_ts" (spec §4.B; the comparison
there is strict). `Immutable::check_conflict` "behaves like Mutable's", so
the same predicate serves for a plain entry list. -/
def checkConflictEntries (entries : List TEntry) (key : Nat) (ts : Nat) :
    Bool :=
  entries.any (fun e => e.key == key && ts < e.ts)

/-- `Schema<R, FP>` of `src/lib.rs`: the current Mutable, the deque of
Immutables pending compaction (index 0 is the front of the deque, i.e. the
newest, per the freeze step "move Mutable to the front of the Immutable
deque"), and the freeze threshold from `DbOption`. Each Immutable is carried
as its entry rows. The capacity-one compaction channel (`compaction_tx`) is
modelled next to the Schema in `DBState` since its state is shared. -/
structure Schema where
  mutable : Mutable
  immutables : List (List TEntry)
  maxMemTableSize : Nat
deriving DecidableEq, Repr

/-- `Schema::write` of `src/lib.rs`:
`Ok(self.mutable.insert(log_ty, record, ts).await? > self.option.max_mem_table_size)` —
insert into the Mutable and report whether the returned size estimate
strictly exceeds `max_mem_table_size`. -/
def Schema.write (s : Schema) (logTy : LogType) (r : Rec) (ts : Nat) :
    Schema × Bool :=
  let (m', size) := s.mutable.insert logTy r ts
  ({ s with mutable := m' }, decide (s.maxMemTableSize < size))

/-- `Schema::check_conflict` of `src/lib.rs`: conflict in the Mutable, or in
any Immutable of the pending deque. -/
def Schema.check_conflict (s : Schema) (key : Nat) (ts : Nat) : Bool :=
  checkConflictEntries s.mutable.data key ts
    || s.immutables.any (fun im => checkConflictEntries im key ts)

/-- `WriteError` of `src/lib.rs` (Io / Version / Parquet variants). -/
inductive WriteError
  | ioError
  | versionError
  | parquetError
deriving DecidableEq, Repr

/-- `compaction::CompactTask`: the only message of the freeze channel. -/
inductive CompactTask
  | freeze
deriving DecidableEq, Repr

/-- `flume::Sender::try_send` on the `bounded(1)` compaction channel,
modelled on the count of pending messages: deliver when there is room,
silently drop otherwise (the `Result` of `try_send` is discarded by
`let _ =` in the source). -/
def trySend (chan : Nat) : Nat :=
  if chan < 1 then chan + 1 else chan

/-- The state a `DB` write touches: the Schema and the pending-message count
of the capacity-one compaction channel. -/
structure DBState where
  schema : Schema
  chan : Nat
deriving DecidableEq, Repr

/-- `DB::write` of `src/lib.rs`: insert with `LogType::Full`; if the size
check reports excess, `try_send(CompactTask::Freeze)` (result ignored);
return `Ok(())`. The middle component reports whether `try_send` was
invoked. -/
def DBState.write (st : DBState) (r : Rec) (ts : Nat) :
    DBState × Bool × Except WriteError Unit :=
  let (schema', isExcess) := st.schema.write .full r ts
  let chan' := if isExcess then trySend st.chan else st.chan
  (⟨schema', chan'⟩, isExcess, .ok ())

/-- The `while let Some(record) = records.next()` loop of `DB::write_batch`:
every drained record is written as `Middle`, keeping the most recent one in
`last_buf` (`mem::replace`); returns the Schema after the middle writes and
the final `last_buf`. -/
def writeMiddles (s : Schema) (lastBuf : Rec) (rest : List Rec)
    (ts : Nat) : Schema × Rec :=
  match rest with
  | [] => (s, lastBuf)
  | r :: rs =>
    let (s', _) := s.write .middle lastBuf ts
    writeMiddles s' r rs ts

/-- `DB::write_batch` of `src/lib.rs`: an empty batch does nothing; a
singleton is written as `Full`; otherwise the first record is written as
`First`, the drained middles as `Middle`, the final buffer as `Last`, and
only the result of the last `Schema::write` decides the freeze signal. -/
def DBState.writeBatch (st : DBState) (records : List Rec) (ts : Nat) :
    DBState × Except WriteError Unit :=
  match records with
  | [] => (st, .ok ())
  | [first] =>
    let (s', isExcess) := st.schema.write .full first ts
    (⟨s', if isExcess then trySend st.chan else st.chan⟩, .ok ())
  | first :: second :: rest =>
    let (s1, _) := st.schema.write .first first ts
    let (s2, lastBuf) := writeMiddles s1 second rest ts
    let (s3, isExcess) := s2.write .last lastBuf ts
    (⟨s3, if isExcess then trySend st.chan else st.chan⟩, .ok ())

/-- `std::ops::Bound<&R::Key>` as used for scan bounds. -/
inductive KeyBound
  | unbounded
  | included (k : Nat)
  | excluded (k : Nat)
deriving DecidableEq, Repr

/-- Does a key lie above the lower bound? -/
def KeyBound.lowerOk (b : KeyBound) (k : Nat) : Bool :=
  match b with
  | .unbounded => true
  | .included l => l ≤ k
  | .excluded l => l < k

/-- Does a key lie below the upper bound? -/
def KeyBound.upperOk (b : KeyBound) (k : Nat) : Bool :=
  match b with
  | .unbounded => true
  | .included u => k ≤ u
  | .excluded u => k < u

/-- Modelled from the spec: a source scan
(`Mutable::scan` / `Immutable::scan` / an SST stream): "ordered stream over
the keyspace, skipping entries with ts' > ts" — entries within the bounds
whose timestamp is visible at `ts`. Tombstones are preserved. -/
def scanEntries (entries : List TEntry) (lower upper : KeyBound)
    (ts : Nat) : List TEntry :=
  entries.filter (fun e => lower.lowerOk e.key && upper.upperOk e.key && e.ts ≤ ts)

/-- The merge order on entries: ascending user key, then descending
timestamp (spec §3, "ascending by K, then descending by ts"). `true` when
`a` strictly precedes `b`. Entries tying on `(key, ts)` are not ordered:
the merge breaks such ties by source precedence. -/
def entLt (a b : TEntry) : Bool :=
  a.key < b.key || (a.key == b.key && b.ts < a.ts)

/-- Modelled from the spec: the selection step of the k-way `MergeStream` —
fold the candidates keeping the least under `entLt`, and on a `(key, ts)`
tie keep the earlier candidate (source precedence: earlier stream wins). -/
def pickMin (acc : Option TEntry) (l : List TEntry) : Option TEntry :=
  match l with
  | [] => acc
  | e :: rest =>
    match acc with
    | none => pickMin (some e) rest
    | some a => pickMin (some (if entLt e a then e else a)) rest

/-- Modelled from the spec: the on-disk `Version`: the L0 segment list
(newest first; segments may overlap) and the deeper levels L1… (each level a
list of non-overlapping segments). A segment is carried as its entry rows. -/
structure VersionModel where
  l0 : List (List TEntry)
  levels : List (List (List TEntry))
deriving DecidableEq, Repr

/-- Modelled from the spec: `Version::streams` "produces, for each relevant
segment under `bounds`, a scan stream": one stream per L0 segment (newest
first), then the deeper levels in order. -/
def VersionModel.streams (v : VersionModel) (lower upper : KeyBound)
    (ts : Nat) : List (List TEntry) :=
  v.l0.map (fun seg => scanEntries seg lower upper ts)
    ++ (v.levels.map (fun lvl =>
          lvl.map (fun seg => scanEntries seg lower upper ts))).flatten

/-- `Scan::take` of `src/lib.rs`: starting from the streams the scan was
constructed with, push the Mutable's scan stream, then one stream per
Immutable in deque order, then append the Version's streams; the resulting
vector is handed to `MergeStream::from_vec`. -/
def Scan.take (init : List (List TEntry)) (s : Schema) (v : VersionModel)
    (lower upper : KeyBound) (ts : Nat) : List (List TEntry) :=
  init
    ++ [scanEntries s.mutable.data lower upper ts]
    ++ s.immutables.map (fun im => scanEntries im lower upper ts)
    ++ v.streams lower upper ts

/-- Modelled from the spec: the first element the merged stream yields — the
least visible entry across all sources under `(K asc, ts desc)`, earlier
source winning ties. Every source is sorted in merge order (spec §3
invariant), so the head of the k-way merge is exactly the minimum over the
union of the streams. -/
def mergeFirst (streams : List (List TEntry)) : Option TEntry :=
  pickMin none streams.flatten

/-- The head-selection step of the k-way merge as it acts on the stream
heads themselves: least head under `entLt`, earlier stream winning ties.
Used to state the source-precedence tie-break of `MergeStream`. -/
def mergeHead (streams : List (List TEntry)) : Option TEntry :=
  pickMin none (streams.filterMap List.head?)

/-- `Schema::get` of `src/lib.rs`: a scan over
`(Bound::Included(key), Bound::Unbounded)` at `ts` with no extra streams and
no limit, whose merged stream's first entry (if any) is returned. -/
def Schema.get (s : Schema) (v : VersionModel) (key : Nat) (ts : Nat) :
    Option TEntry :=
  mergeFirst (Scan.take [] s v (.included key) .unbounded ts)

/-- `Scan::projection` of `src/lib.rs`: shift every requested user-column
index by 2 (past `_null` and `_ts`), then extend with
`[0, 1, R::primary_key_index()]`; the resulting index list is the
projection mask (membership = leaf inclusion). `pk` stands for
`R::primary_key_index()`. -/
def Scan.projection (projection : List Nat) (pk : Nat) : List Nat :=
  projection.map (· + 2) ++ [0, 1, pk]

/-- `primary_key_index()` of the in-repo `Test` record (`src/lib.rs` tests):
its schema is `[_null, _ts, vstring, vu32, vbool]` with `vstring` the
primary key, and `primary_key_index()` returns 2 — the leaf index of the
key column. -/
def testPrimaryKeyIndex : Nat := 2

/-- `timestamp::Timestamped<V>` (timestamps are `u32`, modelled as `Nat`): a value paired with its timestamp. -/
structure Timestamped (α : Type) where
  value : α
  ts : Nat
deriving DecidableEq, Repr

/-- Result of code that may `panic!` / `unwrap()` / reach `unreachable!()`:
either the value, or a process panic. -/
inductive PResult (α : Type)
  | ok (a : α)
  | panicked
deriving DecidableEq, Repr

/-- `wal::record_entry::RecordEntry<'r, R>`: the `Encode` variant holds a
timestamped key reference and an optional record reference; the `Decode`
variant holds the owned pair. Reference and owned forms are identified in
the model (`encodeE` / `decodeE`). -/
inductive RecordEntry (K V : Type)
  | encodeE (key : Timestamped K) (value : Option V)
  | decodeE (key : Timestamped K) (value : Option V)
deriving DecidableEq, Repr

/-- A byte-level serializer/parser pair for one component type, as the
`serdes::{Encode, Decode}` impls provide (those impls are outside `src/`):
`enc` produces the bytes, `dec` consumes a prefix of the input and returns
the value with the unread rest, or `none` on malformed input. Bytes are
`Nat`s. -/
structure Codec (α : Type) where
  enc : α → List Nat
  dec : List Nat → Option (α × List Nat)

/-- A codec is lawful when decoding after its own encoding restores the
value and consumes exactly the encoded bytes. -/
def Codec.Lawful {α : Type} (c : Codec α) : Prop :=
  ∀ (x : α) (rest : List Nat), c.dec (c.enc x ++ rest) = some (x, rest)

/-- Big-endian bytes of a `u32` timestamp (spec §4.A: "Encoding is
(user_key_bytes, big-endian ts)"). -/
def tsBytes (ts : Nat) : List Nat :=
  [ts / 2 ^ 24 % 256, ts / 2 ^ 16 % 256, ts / 2 ^ 8 % 256, ts % 256]

/-- Parse four big-endian bytes back into a timestamp. -/
def tsParse (l : List Nat) : Option (Nat × List Nat) :=
  match l with
  | b0 :: b1 :: b2 :: b3 :: rest =>
    some (b0 * 2 ^ 24 + b1 * 2 ^ 16 + b2 * 2 ^ 8 + b3, rest)
  | _ => none

/-- Modelled from the spec: the `serdes` impl of `Timestamped<K>` (outside
`src/`): the key bytes followed by the big-endian timestamp. -/
def tsdCodec {K : Type} (kc : Codec K) : Codec (Timestamped K) where
  enc tk := kc.enc tk.value ++ tsBytes tk.ts
  dec l :=
    match kc.dec l with
    | none => none
    | some (k, rest) =>
      match tsParse rest with
      | none => none
      | some (ts, rest') => some (⟨k, ts⟩, rest')

/-- Modelled from the spec: the `serdes` impl of `Option<V>` (outside
`src/`): a presence tag byte, then the payload when present. -/
def optCodec {V : Type} (vc : Codec V) : Codec (Option V) where
  enc v :=
    match v with
    | none => [0]
    | some x => 1 :: vc.enc x
  dec l :=
    match l with
    | 0 :: rest => some (none, rest)
    | 1 :: rest =>
      match vc.dec rest with
      | none => none
      | some (x, rest') => some (some x, rest')
    | _ => none

/-- `impl Encode for RecordEntry` of `src/wal/record_entry.rs`: on the
`Encode` variant, encode the timestamped key then the optional record
reference; on the `Decode` variant the code reaches `unreachable!()` and
panics. -/
def RecordEntry.encodeBytes {K V : Type} (kc : Codec K) (vc : Codec V) :
    RecordEntry K V → PResult (List Nat)
  | .encodeE key value => .ok ((tsdCodec kc).enc key ++ (optCodec vc).enc value)
  | .decodeE _ _ => .panicked

/-- `RecordEntry::size` of `src/wal/record_entry.rs`: the summed component
sizes on the `Encode` variant (a component's size is modelled as the length
of its encoding); `unreachable!()` on the `Decode` variant. -/
def RecordEntry.sizeOf {K V : Type} (kc : Codec K) (vc : Codec V) :
    RecordEntry K V → PResult Nat
  | .encodeE key value =>
    .ok (((tsdCodec kc).enc key).length + ((optCodec vc).enc value).length)
  | .decodeE _ _ => .panicked

/-- `impl Decode for RecordEntry` of `src/wal/record_entry.rs`: decode the
timestamped key, then the optional record, each followed by `.unwrap()` — a
component decode failure is therefore a panic of the calling task, not an
`Err` return. On success the `Decode` variant is built. -/
def RecordEntry.decodeBytes {K V : Type} (kc : Codec K) (vc : Codec V)
    (input : List Nat) : PResult (RecordEntry K V) :=
  match (tsdCodec kc).dec input with
  | none => .panicked
  | some (key, rest) =>
    match (optCodec vc).dec rest with
    | none => .panicked
    | some (value, _) => .ok (.decodeE key value)

/-- A concrete lawful codec used by witnesses: a `Nat` as `n` one-bytes
terminated by a zero byte. -/
def natUnaryEnc (n : Nat) : List Nat :=
  List.replicate n 1 ++ [0]

/-- Parser of `natUnaryEnc`. -/
def natUnaryDec : List Nat → Option (Nat × List Nat)
  | [] => none
  | b :: rest =>
    if b = 0 then some (0, rest)
    else
      match natUnaryDec rest with
      | none => none
      | some (n, r) => some (n + 1, r)

/-- The unary `Nat` codec packaged. -/
def natUnary : Codec Nat where
  enc := natUnaryEnc
  dec := natUnaryDec

/-- All entries of the tree reachable from a `Version`, L0 first. -/
def VersionModel.entries (v : VersionModel) : List TEntry :=
  v.l0.flatten ++ (v.levels.map List.flatten).flatten

/-- All entries reachable from a `Schema` plus a `Version`: Mutable,
Immutables, then the on-disk levels. -/
def allEntries (s : Schema) (v : VersionModel) : List TEntry :=
  s.mutable.data ++ s.immutables.flatten ++ v.entries

lemma entLt_iff (a b : TEntry) :
    entLt a b = true ↔ (a.key < b.key ∨ (a.key = b.key ∧ b.ts < a.ts)) := by
  simp [entLt]

lemma entLt_irrefl (a : TEntry) : entLt a a = false := by
  simp [entLt]

lemma entLt_trans {a b c : TEntry} (hab : entLt a b = true)
    (hbc : entLt b c = true) : entLt a c = true := by
  rw [entLt_iff] at hab hbc ⊢
  omega

lemma entLt_of_not_lt_of_lt {a b c : TEntry} (hba : entLt b a = false)
    (hbc : entLt b c = true) : entLt a c = true := by
  have hba' : ¬ (b.key < a.key ∨ (b.key = a.key ∧ a.ts < b.ts)) := by
    rw [← entLt_iff, hba]; simp
  rw [entLt_iff] at hbc ⊢
  omega

lemma pickMin_eq_none {l : List TEntry} {acc : Option TEntry} :
    pickMin acc l = none ↔ acc = none ∧ l = [] := by
  induction l generalizing acc with
  | nil => simp [pickMin]
  | cons e rest ih =>
    cases acc <;> simp [pickMin, ih]

lemma pickMin_mem {l : List TEntry} {acc : Option TEntry} {m : TEntry}
    (h : pickMin acc l = some m) : acc = some m ∨ m ∈ l := by
  induction l generalizing acc with
  | nil => simp [pickMin] at h; simp [h]
  | cons e rest ih =>
    cases acc with
    | none =>
      rcases ih (by simpa [pickMin] using h) with h' | h'
      · simp at h'; simp [h']
      · simp [h']
    | some a =>
      rcases ih (by simpa [pickMin] using h) with h' | h'
      · by_cases hlt : entLt e a = true
        · simp [hlt] at h'; simp [h']
        · rw [Bool.not_eq_true] at hlt
          simp [hlt] at h'; simp [h']
      · simp [h']

lemma pickMin_min {l : List TEntry} {acc : Option TEntry} {m : TEntry}
    (h : pickMin acc l = some m) :
    (∀ a, acc = some a → entLt a m = false) ∧ ∀ x ∈ l, entLt x m = false := by
  induction l generalizing acc with
  | nil =>
    simp [pickMin] at h
    subst h
    refine ⟨?_, by simp⟩
    intro a ha
    obtain rfl : m = a := Option.some.inj ha
    exact entLt_irrefl _
  | cons e rest ih =>
    cases acc with
    | none =>
      have ih' := @ih (some e) (by simpa [pickMin] using h)
      refine ⟨by simp, ?_⟩
      intro x hx
      rcases List.mem_cons.mp hx with rfl | hx
      · exact ih'.1 x rfl
      · exact ih'.2 x hx
    | some a =>
      have ih' := @ih (some (if entLt e a then e else a))
        (by simpa [pickMin] using h)
      by_cases hlt : entLt e a = true
      · have hem : entLt e m = false := by
          have := ih'.1 (if entLt e a then e else a) rfl
          simpa [hlt] using this
        have ham : entLt a m = false := by
          by_contra hc
          rw [Bool.not_eq_false] at hc
          have := entLt_trans hlt hc
          simp [this] at hem
        refine ⟨?_, ?_⟩
        · intro b hb
          obtain rfl : a = b := Option.some.inj hb
          exact ham
        · intro x hx
          rcases List.mem_cons.mp hx with rfl | hx
          · exact hem
          · exact ih'.2 x hx
      · rw [Bool.not_eq_true] at hlt
        have ham : entLt a m = false := by
          have := ih'.1 (if entLt e a then e else a) rfl
          simpa [hlt] using this
        have hem : entLt e m = false := by
          by_contra hc
          rw [Bool.not_eq_false] at hc
          have := entLt_of_not_lt_of_lt hlt hc
          simp [this] at ham
        refine ⟨?_, ?_⟩
        · intro b hb
          obtain rfl : a = b := Option.some.inj hb
          exact ham
        · intro x hx
          rcases List.mem_cons.mp hx with rfl | hx
          · exact hem
          · exact ih'.2 x hx

lemma pickMin_keep {l : List TEntry} {a : TEntry}
    (h : ∀ x ∈ l, entLt x a = false) : pickMin (some a) l = some a := by
  induction l with
  | nil => simp [pickMin]
  | cons e rest ih =>
    have he : entLt e a = false := h e (by simp)
    simp only [pickMin, he, Bool.false_eq_true, if_false]
    exact ih (fun x hx => h x (List.mem_cons_of_mem _ hx))

lemma pickMin_acc_wins {pre post : List TEntry} {a m : TEntry}
    (hma : entLt m a = true) (hpre : ∀ x ∈ pre, entLt m x = true)
    (hpost : ∀ x ∈ post, entLt x m = false) :
    pickMin (some a) (pre ++ m :: post) = some m := by
  induction pre generalizing a with
  | nil =>
    simp only [List.nil_append, pickMin, hma, if_true]
    exact pickMin_keep hpost
  | cons p pre' ih =>
    have hmp : entLt m p = true := hpre p (by simp)
    simp only [List.cons_append, pickMin]
    by_cases hpa : entLt p a = true
    · simp only [hpa, if_true]
      exact ih hmp (fun x hx => hpre x (List.mem_cons_of_mem _ hx))
    · rw [Bool.not_eq_true] at hpa
      simp only [hpa, Bool.false_eq_true, if_false]
      exact ih hma (fun x hx => hpre x (List.mem_cons_of_mem _ hx))

lemma pickMin_first_wins {pre post : List TEntry} {m : TEntry}
    (hpre : ∀ x ∈ pre, entLt m x = true)
    (hpost : ∀ x ∈ post, entLt x m = false) :
    pickMin none (pre ++ m :: post) = some m := by
  cases pre with
  | nil =>
    simp only [List.nil_append, pickMin]
    exact pickMin_keep hpost
  | cons p pre' =>
    simp only [List.cons_append, pickMin]
    exact pickMin_acc_wins (hpre p (by simp))
      (fun x hx => hpre x (List.mem_cons_of_mem _ hx)) hpost

lemma take_flatten_eq (s : Schema) (v : VersionModel) (lower upper : KeyBound)
    (ts : Nat) :
    (Scan.take [] s v lower upper ts).flatten
      = (allEntries s v).filter
          (fun e => lower.lowerOk e.key && upper.upperOk e.key && e.ts ≤ ts) := by
  simp only [Scan.take, VersionModel.streams, scanEntries, allEntries,
    VersionModel.entries, List.flatten_append, List.filter_append,
    List.nil_append, List.flatten_cons, List.flatten_nil, List.append_nil,
    List.append_assoc, List.filter_flatten, List.flatten_flatten,
    List.map_map, Function.comp]
  congr 5
  funext lvl
  exact (List.filter_flatten _ lvl).symm

lemma schema_write_wal (s : Schema) (logTy : LogType) (r : Rec) (ts : Nat) :
    (s.write logTy r ts).1.mutable.wal = s.mutable.wal ++ [(logTy, r, ts)] := by
  rfl

lemma writeMiddles_wal (rest : List Rec) (s : Schema) (lastBuf : Rec)
    (ts : Nat) :
    (writeMiddles s lastBuf rest ts).1.mutable.wal
      = s.mutable.wal
          ++ (lastBuf :: rest).dropLast.map (fun r => (LogType.middle, r, ts))
    ∧ (writeMiddles s lastBuf rest ts).2 = rest.getLastD lastBuf := by
  induction rest generalizing s lastBuf with
  | nil => simp [writeMiddles]
  | cons r rs ih =>
    have h := ih ((s.write .middle lastBuf ts).1) r
    refine ⟨?_, ?_⟩
    · rw [show writeMiddles s lastBuf (r :: rs) ts
        = writeMiddles (s.write .middle lastBuf ts).1 r rs ts from rfl]
      rw [h.1, schema_write_wal]
      simp [List.dropLast_cons_of_ne_nil]
    · rw [show writeMiddles s lastBuf (r :: rs) ts
        = writeMiddles (s.write .middle lastBuf ts).1 r rs ts from rfl]
      rw [h.2]
      exact (List.getLastD_cons _ _ _).symm

lemma map_middle_rec (ts : Nat) (l : List Rec) :
    l.map ((fun x : LogType × Rec × Nat => x.2.1)
      ∘ fun r => (LogType.middle, r, ts)) = l := by
  induction l with
  | nil => rfl
  | cons a as ih =>
    rw [List.map_cons, ih]
    rfl

lemma map_middle_fst (ts : Nat) (l : List Rec) :
    l.map ((fun x : LogType × Rec × Nat => x.1)
      ∘ fun r => (LogType.middle, r, ts))
      = List.replicate l.length LogType.middle := by
  induction l with
  | nil => rfl
  | cons a as ih =>
    rw [List.map_cons, ih, List.length_cons, List.replicate_succ]
    rfl

lemma dropLast_append_getLastD (a : Rec) (l : List Rec) :
    (a :: l).dropLast ++ [l.getLastD a] = a :: l := by
  induction l generalizing a with
  | nil => simp
  | cons b bs ih =>
    rw [List.dropLast_cons_of_ne_nil (by simp)]
    simp only [List.cons_append, List.getLastD_cons]
    rw [ih b]

/-- **C10**: `DB::write_batch` called with an empty iterator returns `Ok(())`
without performing any Schema write: the Mutable table (data and WAL), the
Immutable deque and the compaction channel are all left unchanged, and no
Freeze signal is sent. -/
theorem write_batch_empty_is_noop (st : DBState) (ts : Nat) :
    DBState.writeBatch st [] ts = (st, Except.ok ()) := by
  rfl

/-- **C4**: for a non-empty batch of `n` records, `DB::write_batch` appends
exactly `n` WAL writes, in input order, all at timestamp `ts`, with log
types `[Full]` when `n = 1` and `First, Middle^(n-2), Last` when `n ≥ 2`. -/
theorem write_batch_log_types (st : DBState) (records : List Rec) (ts : Nat)
    (h : records ≠ []) :
    ∃ logs : List (LogType × Rec × Nat),
      (DBState.writeBatch st records ts).1.schema.mutable.wal
          = st.schema.mutable.wal ++ logs
      ∧ logs.map (fun x => x.2.1) = records
      ∧ (∀ x ∈ logs, x.2.2 = ts)
      ∧ logs.map (fun x => x.1)
          = (if records.length = 1 then [LogType.full]
             else LogType.first
               :: (List.replicate (records.length - 2) LogType.middle
                   ++ [LogType.last])) := by
  match records with
  | [] => exact absurd rfl h
  | [r] =>
    refine ⟨[(LogType.full, r, ts)], ?_, by simp, by simp, by simp⟩
    rw [show (DBState.writeBatch st [r] ts).1.schema
      = (st.schema.write .full r ts).1 from rfl]
    exact schema_write_wal _ _ _ _
  | r1 :: r2 :: rest =>
    have hs1 : (DBState.writeBatch st (r1 :: r2 :: rest) ts).1.schema
        = ((writeMiddles (st.schema.write .first r1 ts).1 r2 rest ts).1.write
            .last (writeMiddles (st.schema.write .first r1 ts).1 r2 rest ts).2
            ts).1 := rfl
    have hmid := writeMiddles_wal rest (st.schema.write .first r1 ts).1 r2 ts
    refine ⟨(LogType.first, r1, ts)
        :: ((r2 :: rest).dropLast.map (fun r => (LogType.middle, r, ts))
            ++ [(LogType.last, rest.getLastD r2, ts)]), ?_, ?_, ?_, ?_⟩
    · rw [hs1, schema_write_wal, hmid.2, hmid.1, schema_write_wal]
      simp
    · simp only [List.map_cons, List.map_append, List.map_map, List.map_nil]
      rw [map_middle_rec ts ((r2 :: rest).dropLast)]
      rw [dropLast_append_getLastD r2 rest]
    · intro x hx
      rcases List.mem_cons.mp hx with rfl | hx'
      · rfl
      rcases List.mem_append.mp hx' with hx'' | hx''
      · rcases List.mem_map.mp hx'' with ⟨r, _, rfl⟩
        rfl
      · rcases List.mem_singleton.mp hx'' with rfl
        rfl
    · simp only [List.map_cons, List.map_append, List.map_map, List.map_nil]
      rw [map_middle_fst ts ((r2 :: rest).dropLast)]
      rw [if_neg (by simp)]
      have h2 : (r1 :: r2 :: rest).length - 2 = rest.length := by
        simp
      have h3 : (r2 :: rest).dropLast.length = rest.length := by
        rw [List.length_dropLast, List.length_cons]
        omega
      rw [h2, h3]

/-- **C2**: `DB::write` inserts the record and invokes the non-blocking
`try_send(Freeze)` exactly when the size estimate returned by
`Mutable::insert` strictly exceeds `max_mem_table_size`; the write returns
`Ok` whether or not the capacity-one channel had room, a full channel keeps
exactly its one pending signal, and the channel never holds more than one
pending Freeze. -/
theorem db_write_freeze_iff (st : DBState) (r : Rec) (ts : Nat)
    (hcap : st.chan ≤ 1) :
    (DBState.write st r ts).2.2 = Except.ok ()
    ∧ ((DBState.write st r ts).2.1 = true
        ↔ st.schema.maxMemTableSize < (st.schema.mutable.insert .full r ts).2)
    ∧ (DBState.write st r ts).1.chan
        = (if (DBState.write st r ts).2.1 then trySend st.chan else st.chan)
    ∧ (DBState.write st r ts).1.chan ≤ 1
    ∧ (st.chan = 1 → (DBState.write st r ts).1.chan = 1) := by
  refine ⟨rfl, ?_, rfl, ?_, ?_⟩
  · rw [show (DBState.write st r ts).2.1
      = decide (st.schema.maxMemTableSize < (st.schema.mutable.insert .full r ts).2)
      from rfl]
    simp
  · rw [show (DBState.write st r ts).1.chan
      = (if (st.schema.write .full r ts).2 then trySend st.chan else st.chan)
      from rfl]
    by_cases hx : (st.schema.write .full r ts).2 = true
    · simp only [hx, if_true, trySend]
      split <;> omega
    · rw [Bool.not_eq_true] at hx
      simp only [hx, Bool.false_eq_true, if_false]
      exact hcap
  · intro h1
    rw [show (DBState.write st r ts).1.chan
      = (if (st.schema.write .full r ts).2 then trySend st.chan else st.chan)
      from rfl]
    by_cases hx : (st.schema.write .full r ts).2 = true
    · simp only [hx, if_true, trySend, h1]
      split <;> omega
    · rw [Bool.not_eq_true] at hx
      simp only [hx, Bool.false_eq_true, if_false, h1]

/-- Witness for **C2** at a concrete state: an empty channel, a tiny
threshold, and one write. -/
theorem db_write_freeze_iff_witness :
    (DBState.write ⟨⟨⟨[], []⟩, [], 3⟩, 0⟩ ⟨1, 2⟩ 5).2.2 = Except.ok ()
    ∧ ((DBState.write ⟨⟨⟨[], []⟩, [], 3⟩, 0⟩ ⟨1, 2⟩ 5).2.1 = true
        ↔ 3 < ((⟨⟨[], []⟩, [], 3⟩ : Schema).mutable.insert .full ⟨1, 2⟩ 5).2)
    ∧ (DBState.write ⟨⟨⟨[], []⟩, [], 3⟩, 0⟩ ⟨1, 2⟩ 5).1.chan
        = (if (DBState.write ⟨⟨⟨[], []⟩, [], 3⟩, 0⟩ ⟨1, 2⟩ 5).2.1
           then trySend 0 else 0)
    ∧ (DBState.write ⟨⟨⟨[], []⟩, [], 3⟩, 0⟩ ⟨1, 2⟩ 5).1.chan ≤ 1
    ∧ ((0 : Nat) = 1
        → (DBState.write ⟨⟨⟨[], []⟩, [], 3⟩, 0⟩ ⟨1, 2⟩ 5).1.chan = 1) :=
  db_write_freeze_iff ⟨⟨⟨[], []⟩, [], 3⟩, 0⟩ ⟨1, 2⟩ 5 (by decide)

/-- Witness for **C4** at a concrete three-record batch. -/
theorem write_batch_log_types_witness :
    ∃ logs : List (LogType × Rec × Nat),
      (DBState.writeBatch ⟨⟨⟨[], []⟩, [], 100⟩, 0⟩
          [⟨1, 1⟩, ⟨2, 2⟩, ⟨3, 3⟩] 7).1.schema.mutable.wal
          = ([] : List (LogType × Rec × Nat)) ++ logs
      ∧ logs.map (fun x => x.2.1) = [⟨1, 1⟩, ⟨2, 2⟩, ⟨3, 3⟩]
      ∧ (∀ x ∈ logs, x.2.2 = 7)
      ∧ logs.map (fun x => x.1)
          = (if ([⟨1, 1⟩, ⟨2, 2⟩, ⟨3, 3⟩] : List Rec).length = 1
             then [LogType.full]
             else LogType.first
               :: (List.replicate (([⟨1, 1⟩, ⟨2, 2⟩, ⟨3, 3⟩] : List Rec).length - 2)
                     LogType.middle ++ [LogType.last])) :=
  write_batch_log_types ⟨⟨⟨[], []⟩, [], 100⟩, 0⟩ [⟨1, 1⟩, ⟨2, 2⟩, ⟨3, 3⟩] 7
    (by decide)

/-- **C3 counterexample**: the claim states `check_conflict(k, s)` is true
whenever some entry for `k` has timestamp `≥ s`; but the conflict predicate
is strict (`ts > snapshot_ts`), so at a Mutable holding exactly `(0, ts 5)`
the call `check_conflict 0 5` returns `false` although an entry with
timestamp `5 ≥ 5` exists. -/
theorem check_conflict_claim_false :
    Schema.check_conflict ⟨⟨[⟨0, 5, some 1⟩], []⟩, [], 100⟩ 0 5 = false
    ∧ ∃ e ∈ ([⟨0, 5, some 1⟩] : List TEntry), e.key = 0 ∧ 5 ≤ e.ts := by
  decide

/-- **C3 (amended)**: `Schema::check_conflict(k, s)` returns true iff some
entry with user key `k` and timestamp strictly greater than `s` exists in
the current Mutable or in at least one pending Immutable. -/
theorem check_conflict_amended (s : Schema) (k ts : Nat) :
    Schema.check_conflict s k ts = true
      ↔ ((∃ e ∈ s.mutable.data, e.key = k ∧ ts < e.ts)
         ∨ ∃ im ∈ s.immutables, ∃ e ∈ im, e.key = k ∧ ts < e.ts) := by
  simp [Schema.check_conflict, checkConflictEntries, List.any_eq_true]

/-- **C1 counterexample**: `Schema::get` scans from
`(Bound::Included(key), Bound::Unbounded)` and returns the merged stream's
first entry without comparing its key against the requested one. At a
Mutable holding only the entry `(key 1, ts 0)`, `get(0, 5)` returns `Some`
of that entry although its user key `1` differs from the requested key `0` —
refuting "returns Some only for an entry whose user key equals k". -/
theorem schema_get_claim_false :
    Schema.get ⟨⟨[⟨1, 0, some 7⟩], []⟩, [], 100⟩ ⟨[], []⟩ 0 5
      = some ⟨1, 0, some 7⟩
    ∧ (⟨1, 0, some 7⟩ : TEntry).key ≠ 0 := by
  decide

/-- **C1 (amended)**: `Schema::get(k, ts)` returns the least visible entry
with user key `≥ k` (not necessarily `= k`). Precisely: it returns `None`
exactly when no source holds an entry with key `≥ k` and timestamp `≤ ts`;
any entry it returns is such an entry and precedes, in merge order, every
visible entry with key `≥ k`; and whenever some entry with user key exactly
`k` and timestamp `≤ ts` exists in any source, the returned entry has key
`k` and carries the largest timestamp `≤ ts` among the entries for `k`. -/
theorem schema_get_amended (s : Schema) (v : VersionModel) (k ts : Nat) :
    (Schema.get s v k ts = none
       ↔ ∀ e ∈ allEntries s v, ¬(k ≤ e.key ∧ e.ts ≤ ts))
    ∧ (∀ m, Schema.get s v k ts = some m →
        m ∈ allEntries s v ∧ k ≤ m.key ∧ m.ts ≤ ts
        ∧ ∀ e ∈ allEntries s v, k ≤ e.key → e.ts ≤ ts → entLt e m = false)
    ∧ ((∃ e ∈ allEntries s v, e.key = k ∧ e.ts ≤ ts) →
        ∃ m, Schema.get s v k ts = some m
          ∧ m.key = k ∧ m.ts ≤ ts ∧ m ∈ allEntries s v
          ∧ (∀ e ∈ allEntries s v, e.key = k → e.ts ≤ ts → e.ts ≤ m.ts)
          ∧ (∀ e ∈ allEntries s v, k ≤ e.key → e.ts ≤ ts
              → entLt e m = false)) := by
  have hget : Schema.get s v k ts
      = pickMin none ((allEntries s v).filter
          (fun e => (KeyBound.included k).lowerOk e.key
            && KeyBound.unbounded.upperOk e.key && e.ts ≤ ts)) := by
    rw [Schema.get, mergeFirst, take_flatten_eq]
  have hfmem : ∀ e ∈ allEntries s v, k ≤ e.key → e.ts ≤ ts →
      e ∈ (allEntries s v).filter
        (fun e => (KeyBound.included k).lowerOk e.key
          && KeyBound.unbounded.upperOk e.key && e.ts ≤ ts) := by
    intro e he hk hts'
    rw [List.mem_filter]
    exact ⟨he, by simp [KeyBound.lowerOk, KeyBound.upperOk, hk, hts']⟩
  have hsome : ∀ m, Schema.get s v k ts = some m →
      m ∈ allEntries s v ∧ k ≤ m.key ∧ m.ts ≤ ts
      ∧ ∀ e ∈ allEntries s v, k ≤ e.key → e.ts ≤ ts → entLt e m = false := by
    intro m hm
    rw [hget] at hm
    have hmmem : m ∈ (allEntries s v).filter
        (fun e => (KeyBound.included k).lowerOk e.key
          && KeyBound.unbounded.upperOk e.key && e.ts ≤ ts) :=
      (pickMin_mem hm).resolve_left (by simp)
    have hmin := (pickMin_min hm).2
    obtain ⟨hmall, hmprop⟩ := List.mem_filter.mp hmmem
    simp only [KeyBound.lowerOk, KeyBound.upperOk, Bool.and_eq_true,
      decide_eq_true_eq, and_true, true_and] at hmprop
    exact ⟨hmall, hmprop.1, hmprop.2,
      fun e he hk hts' => hmin e (hfmem e he hk hts')⟩
  refine ⟨?_, hsome, ?_⟩
  · rw [hget, pickMin_eq_none]
    simp only [eq_self_iff_true, true_and]
    rw [List.filter_eq_nil_iff]
    constructor
    · intro h e he hc
      have h2 := h e he
      simp only [KeyBound.lowerOk, KeyBound.upperOk, Bool.and_eq_true,
        decide_eq_true_eq, and_true, true_and] at h2
      exact h2 hc
    · intro h e he hp
      simp only [KeyBound.lowerOk, KeyBound.upperOk, Bool.and_eq_true,
        decide_eq_true_eq, and_true, true_and] at hp
      exact h e he hp
  · rintro ⟨e0, he0mem, he0key, he0ts⟩
    obtain ⟨m, hm⟩ : ∃ m, Schema.get s v k ts = some m := by
      rcases hx : Schema.get s v k ts with _ | m
      · exfalso
        rw [hget, pickMin_eq_none] at hx
        have he0f := hfmem e0 he0mem (le_of_eq he0key.symm) he0ts
        rw [hx.2] at he0f
        exact absurd he0f (List.not_mem_nil e0)
      · exact ⟨m, rfl⟩
    obtain ⟨hmall, hmk, hmts, hminAll⟩ := hsome m hm
    have he0lt := hminAll e0 he0mem (le_of_eq he0key.symm) he0ts
    have hkeyeq : m.key = k := by
      rcases Nat.lt_or_ge k m.key with hlt | hge
      · exfalso
        have : entLt e0 m = true := by
          rw [entLt_iff]
          left
          omega
        simp [this] at he0lt
      · omega
    refine ⟨m, hm, hkeyeq, hmts, hmall, ?_, hminAll⟩
    intro e hemem hek hets
    have helt := hminAll e hemem (by omega) hets
    by_contra hc
    have : entLt e m = true := by
      rw [entLt_iff]
      right
      omega
    simp [this] at helt

/-- Witness for **C1 (amended)**: two versions of key 5 (ts 3 and ts 9) plus
an unrelated key; `get(5, 10)` must return the ts-9 version (the exact-key
clause of the amended theorem, its existential hypothesis discharged at the
concrete store). -/
theorem schema_get_amended_witness :
    ∃ m, Schema.get ⟨⟨[⟨5, 3, some 1⟩, ⟨7, 2, some 2⟩], []⟩,
          [[⟨5, 9, some 4⟩]], 100⟩ ⟨[], []⟩ 5 10 = some m
      ∧ m.key = 5 ∧ m.ts ≤ 10
      ∧ m ∈ allEntries ⟨⟨[⟨5, 3, some 1⟩, ⟨7, 2, some 2⟩], []⟩,
          [[⟨5, 9, some 4⟩]], 100⟩ ⟨[], []⟩
      ∧ (∀ e ∈ allEntries ⟨⟨[⟨5, 3, some 1⟩, ⟨7, 2, some 2⟩], []⟩,
            [[⟨5, 9, some 4⟩]], 100⟩ ⟨[], []⟩,
          e.key = 5 → e.ts ≤ 10 → e.ts ≤ m.ts)
      ∧ (∀ e ∈ allEntries ⟨⟨[⟨5, 3, some 1⟩, ⟨7, 2, some 2⟩], []⟩,
            [[⟨5, 9, some 4⟩]], 100⟩ ⟨[], []⟩,
          5 ≤ e.key → e.ts ≤ 10 → entLt e m = false) :=
  (schema_get_amended ⟨⟨[⟨5, 3, some 1⟩, ⟨7, 2, some 2⟩], []⟩,
    [[⟨5, 9, some 4⟩]], 100⟩ ⟨[], []⟩ 5 10).2.2 (by decide)

/-- **C5**: `Scan::take` hands the k-way merge a stream vector assembled in
source-precedence order — the Mutable's stream first, then one stream per
Immutable in deque order (newest first), then the Version's streams with L0
(newest first) before the deeper levels. Consequently, whenever a stream's
head ties on `(K, ts)` with (or precedes) every head of a later stream and
every earlier stream's head is strictly larger, the merge's head selection
emits exactly that stream's entry — the fresher source wins ties. -/
theorem scan_take_source_precedence (s : Schema) (v : VersionModel)
    (lower upper : KeyBound) (ts : Nat) :
    Scan.take [] s v lower upper ts
      = scanEntries s.mutable.data lower upper ts
          :: (s.immutables.map (fun im => scanEntries im lower upper ts)
              ++ (v.l0.map (fun seg => scanEntries seg lower upper ts)
                  ++ (v.levels.map (fun lvl =>
                        lvl.map (fun seg =>
                          scanEntries seg lower upper ts))).flatten))
    ∧ ∀ (pre post : List (List TEntry)) (stream : List TEntry) (m : TEntry),
        Scan.take [] s v lower upper ts = pre ++ stream :: post →
        stream.head? = some m →
        (∀ x ∈ pre.filterMap List.head?, entLt m x = true) →
        (∀ x ∈ post.filterMap List.head?, entLt x m = false) →
        mergeHead (Scan.take [] s v lower upper ts) = some m := by
  constructor
  · simp [Scan.take, VersionModel.streams]
  · intro pre post stream m heq hhead hpre hpost
    rw [mergeHead, heq, List.filterMap_append, List.filterMap_cons, hhead]
    exact pickMin_first_wins hpre hpost

/-- Witness for **C5**: the Mutable, an Immutable and an L0 segment all hold
an entry at the same `(key 0, ts 3)` (the freeze/flush overlap window); the
merge must emit the Mutable's value. -/
theorem scan_take_source_precedence_witness :
    mergeHead (Scan.take []
        ⟨⟨[⟨0, 3, some 1⟩], []⟩, [[⟨0, 3, some 2⟩]], 100⟩
        ⟨[[⟨0, 3, some 3⟩]], []⟩ .unbounded .unbounded 10)
      = some ⟨0, 3, some 1⟩ :=
  (scan_take_source_precedence
      ⟨⟨[⟨0, 3, some 1⟩], []⟩, [[⟨0, 3, some 2⟩]], 100⟩
      ⟨[[⟨0, 3, some 3⟩]], []⟩ .unbounded .unbounded 10).2
    [] [[⟨0, 3, some 2⟩], [⟨0, 3, some 3⟩]] [⟨0, 3, some 1⟩] ⟨0, 3, some 1⟩
    (by decide) (by decide) (by decide) (by decide)

lemma tsBytes_roundtrip (ts : Nat) (h : ts < 2 ^ 32) (rest : List Nat) :
    tsParse (tsBytes ts ++ rest) = some (ts, rest) := by
  simp only [tsBytes, tsParse, List.cons_append, List.nil_append,
    Option.some.injEq, Prod.mk.injEq]
  exact ⟨by omega, trivial⟩

lemma optCodec_lawful {V : Type} {vc : Codec V} (hv : vc.Lawful) :
    (optCodec vc).Lawful := by
  intro x rest
  cases x with
  | none => rfl
  | some a =>
    simp only [optCodec, List.cons_append]
    rw [hv a rest]

lemma tsdCodec_dec {K : Type} {kc : Codec K} (hk : kc.Lawful)
    (tk : Timestamped K) (h : tk.ts < 2 ^ 32) (rest : List Nat) :
    (tsdCodec kc).dec ((tsdCodec kc).enc tk ++ rest) = some (tk, rest) := by
  have h1 : kc.dec (kc.enc tk.value ++ (tsBytes tk.ts ++ rest))
      = some (tk.value, tsBytes tk.ts ++ rest) := hk tk.value _
  have h2 : tsParse (tsBytes tk.ts ++ rest) = some (tk.ts, rest) :=
    tsBytes_roundtrip tk.ts h rest
  simp only [tsdCodec, List.append_assoc, h1, h2]

lemma natUnary_lawful : natUnary.Lawful := by
  intro n rest
  induction n with
  | zero => rfl
  | succ k ih =>
    show natUnaryDec ((List.replicate (k + 1) 1 ++ [0]) ++ rest)
      = some (k + 1, rest)
    rw [List.replicate_succ, List.cons_append, List.cons_append]
    show (if (1 : Nat) = 0 then some (0, List.replicate k 1 ++ [0] ++ rest)
      else match natUnaryDec (List.replicate k 1 ++ [0] ++ rest) with
        | none => none
        | some (n, r) => some (n + 1, r)) = some (k + 1, rest)
    rw [if_neg (by omega)]
    have : natUnaryDec (List.replicate k 1 ++ [0] ++ rest) = some (k, rest) := ih
    rw [this]

/-- **C6**: encoding a `RecordEntry::Encode((Timestamped(key, ts), value))`
and decoding the produced bytes yields a `RecordEntry::Decode` whose key,
timestamp and optional record equal the originals — provided the component
codecs are lawful and the timestamp fits in a `u32` (it is a `u32` in the
source). -/
theorem record_entry_roundtrip {K V : Type} (kc : Codec K) (vc : Codec V)
    (hk : kc.Lawful) (hv : vc.Lawful) (key : Timestamped K) (value : Option V)
    (hts : key.ts < 2 ^ 32) :
    ∃ bytes, RecordEntry.encodeBytes kc vc (.encodeE key value) = .ok bytes
      ∧ RecordEntry.decodeBytes kc vc bytes = .ok (.decodeE key value) := by
  refine ⟨(tsdCodec kc).enc key ++ (optCodec vc).enc value, rfl, ?_⟩
  have h1 := tsdCodec_dec hk key hts ((optCodec vc).enc value)
  have h2 : (optCodec vc).dec ((optCodec vc).enc value) = some (value, []) := by
    have h3 := optCodec_lawful hv value []
    rwa [List.append_nil] at h3
  simp only [RecordEntry.decodeBytes, h1, h2]

/-- Witness for **C6** with the unary `Nat` codec on both components. -/
theorem record_entry_roundtrip_witness :
    ∃ bytes,
      RecordEntry.encodeBytes natUnary natUnary
          (.encodeE ⟨2, 7⟩ (some 3)) = .ok bytes
      ∧ RecordEntry.decodeBytes natUnary natUnary bytes
          = .ok (.decodeE ⟨2, 7⟩ (some 3)) :=
  record_entry_roundtrip natUnary natUnary natUnary_lawful natUnary_lawful
    ⟨2, 7⟩ (some 3) (by norm_num)

/-- **C8**: the decode path of `RecordEntry` `.unwrap()`s both component
decodes, so malformed input makes `RecordEntry::decode` panic instead of
returning the declared `fusio::Error`: on empty input (the timestamped key
cannot be decoded) the model reaches the panic, not an error value. The
claim — and the impl's own `type Error` declaration — say the failure
should be returned to the caller. -/
theorem record_entry_decode_panics_on_malformed :
    @RecordEntry.decodeBytes Nat Nat natUnary natUnary []
      = PResult.panicked := by
  rfl

/-- **C9**: `RecordEntry`'s `Encode` impl is partial over the enum: `encode`
and `size` panic via `unreachable!()` exactly on the `Decode` variant, and
on the `Encode` variant `encode` writes the timestamped key's bytes followed
by the optional record's bytes (`size` summing the component sizes). -/
theorem record_entry_encode_partial_over_enum {K V : Type}
    (kc : Codec K) (vc : Codec V) :
    (∀ e : RecordEntry K V,
      (RecordEntry.encodeBytes kc vc e = .panicked
        ↔ ∃ key value, e = .decodeE key value)
      ∧ (RecordEntry.sizeOf kc vc e = .panicked
        ↔ ∃ key value, e = .decodeE key value))
    ∧ ∀ (key : Timestamped K) (value : Option V),
        RecordEntry.encodeBytes kc vc (.encodeE key value)
          = .ok ((tsdCodec kc).enc key ++ (optCodec vc).enc value)
        ∧ RecordEntry.sizeOf kc vc (.encodeE key value)
          = .ok (((tsdCodec kc).enc key).length
              + ((optCodec vc).enc value).length) := by
  constructor
  · intro e
    cases e with
    | encodeE key value =>
      constructor
      · constructor
        · intro h
          exact absurd h (by simp [RecordEntry.encodeBytes])
        · rintro ⟨k, v, h⟩
          exact absurd h (by simp)
      · constructor
        · intro h
          exact absurd h (by simp [RecordEntry.sizeOf])
        · rintro ⟨k, v, h⟩
          exact absurd h (by simp)
    | decodeE key value =>
      exact ⟨⟨fun _ => ⟨key, value, rfl⟩, fun _ => rfl⟩,
        ⟨fun _ => ⟨key, value, rfl⟩, fun _ => rfl⟩⟩
  · intro key value
    exact ⟨rfl, rfl⟩

/-- **C7 counterexample**: at the repository's own `Test` record
(`primary_key_index() = 2`, the key column's leaf index) with requested
user-column list `[1]`, the mask built by `Scan::projection` does NOT
contain leaf `2 + primary_key_index() = 4` — the code extends the mask with
`R::primary_key_index()` itself, not with the shifted value the claim
states. Leaf `2` (the actual key column) is what gets forced. -/
theorem scan_projection_claim_false :
    (2 + testPrimaryKeyIndex) ∉ Scan.projection [1] testPrimaryKeyIndex
    ∧ testPrimaryKeyIndex ∈ Scan.projection [1] testPrimaryKeyIndex := by
  decide

/-- **C7 (amended)**: the mask contains exactly the requested user-column
indices shifted by 2 (past `_null` and `_ts`) together with the always-
forced leaves `0` (`_null`), `1` (`_ts`) and `primary_key_index()` (the
primary-key column, whose index is already a leaf index and is NOT shifted
by 2). -/
theorem scan_projection_amended (projection : List Nat) (pk : Nat)
    (x : Nat) :
    x ∈ Scan.projection projection pk
      ↔ ((∃ p ∈ projection, x = p + 2) ∨ x = 0 ∨ x = 1 ∨ x = pk) := by
  simp only [Scan.projection, List.mem_append, List.mem_map, List.mem_cons,
    List.mem_singleton, List.not_mem_nil, or_false]
  constructor
  · rintro (⟨p, hp, rfl⟩ | h)
    · exact Or.inl ⟨p, hp, rfl⟩
    · exact Or.inr h
  · rintro (⟨p, hp, rfl⟩ | h)
    · exact Or.inl ⟨p, hp, rfl⟩
    · exact Or.inr h

end Tonbo
